/-
Verification of the order aggregation & presentation engine of the
WhatsApp-order dashboard repository.

The JavaScript functions under verification are shallowly embedded as Lean
functions:

* `getOrdersSummary`, `getTopItems`, `getOrdersOverTime`
  (frontend/src/data/mockData.js);
* `flattenedOrders` and `filteredAndSortedOrders`
  (the OrdersTable component).

JavaScript objects used as string-keyed dictionaries are modelled as
association lists: plain string keys preserve insertion order in JS, a new
key is appended at the end, and `Object.values` / `Object.entries` return
values in that insertion order.  `Array.prototype.sort` is required to be
stable since ES2019; for a consistent comparator its output is the unique
sorted, stable permutation of the input, which the insertion sort
`stableSort` below computes (`b4 a b = true` models `comparator(a,b) < 0`,
"a must come before b").  JavaScript strings are modelled by `String`
(code-unit comparison and `toLowerCase` are modelled on ASCII data, the
only data the repository manipulates); the quantities are the positive
integers required by the record invariants.
-/
import Mathlib

/-! ## String helpers modelling JavaScript string primitives -/

/-- Model of `String.prototype.toLowerCase` (ASCII range). -/
def lowerStr (s : String) : String := ⟨s.data.map Char.toLower⟩

/-- Test `charsStart cs ps` : the character list `cs` starts with `ps`. -/
def charsStart : List Char → List Char → Bool
  | _, [] => true
  | [], _ :: _ => false
  | c :: cs, p :: ps => c = p && charsStart cs ps

/-- Test `charsInclude cs ps` : `ps` occurs contiguously inside `cs`. -/
def charsInclude : List Char → List Char → Bool
  | cs, ps =>
    charsStart cs ps ||
      match cs with
      | [] => false
      | _ :: cs' => charsInclude cs' ps

/-- Model of `String.prototype.includes`. -/
def strIncludes (s pat : String) : Bool := charsInclude s.data pat.data

/-- Model of `s.split(':')[0]` : the text before the first colon
(the whole string when there is no colon). -/
def hourText (s : String) : String := ⟨s.data.takeWhile (fun c => c ≠ ':')⟩

/-- Model of `s.slice(0, -n)` : drop the last `n` characters
(empty result when `n` exceeds the length, as in JS). -/
def strDropLast (s : String) (n : Nat) : String :=
  ⟨s.data.take (s.data.length - n)⟩

/-- Model of `s.slice(-n)` : the last `n` characters
(the whole string when `n` exceeds the length, as in JS). -/
def strLastChars (s : String) (n : Nat) : String :=
  ⟨s.data.drop (s.data.length - n)⟩

/-- Model of `parseInt` restricted to the inputs the bucketer builds:
a leading run of decimal digits, `none` standing for `NaN` when the string
does not start with a digit (sign, whitespace and radix forms never arise
from the keys `getOrdersOverTime` constructs). -/
def jsParseIntOpt (s : String) : Option Nat :=
  let ds := s.data.takeWhile Char.isDigit
  if ds.isEmpty then none
  else some (ds.foldl (fun n c => n * 10 + (c.toNat - 48)) 0)

/-! ## Stable sort: the ES2019 `Array.prototype.sort` model

`b4 a b = true` models `comparator(a, b) < 0`.  A stable sort places `x`
before the first element that is not strictly before it. -/

/-- Insert `x` into `l` after every element strictly before `x`. -/
def insertStable (b4 : α → α → Bool) (x : α) : List α → List α
  | [] => [x]
  | y :: ys => if b4 y x then y :: insertStable b4 x ys else x :: y :: ys

/-- Stable insertion sort: the output of `Array.prototype.sort` for a
consistent comparator. -/
def stableSort (b4 : α → α → Bool) : List α → List α
  | [] => []
  | x :: xs => insertStable b4 x (stableSort b4 xs)

/-! ## Record model (mockData.js record shape) -/

/-- One line item `{ item, qty }` of an order record. -/
structure OrderItem where
  item : String
  qty : Nat
deriving DecidableEq

/-- One order record of the mock data set:
`{ id, name, phone, orders, time, date }`. -/
structure OrderRec where
  id : Nat
  name : String
  phone : String
  orders : List OrderItem
  time : String
  date : String
deriving DecidableEq

/-! ## Aggregator: `getOrdersSummary` -/

/-- One customer summary `{ name, phone, items, totalQuantity }`. -/
structure Summary where
  name : String
  phone : String
  items : List OrderItem
  totalQuantity : Nat
deriving DecidableEq

/-- The grouping key `` `${order.name}_${order.phone}` ``. -/
def custKey (name phone : String) : String := name ++ "_" ++ phone

/-- Model of the inner item merge: `summary[key].items.find(i => i.item ===
item.item)` followed by `qty += item.qty` on the found entry, or `push` of
a copy at the end. -/
def addItem : List OrderItem → OrderItem → List OrderItem
  | [], it => [it]
  | x :: xs, it =>
    if x.item = it.item then { x with qty := x.qty + it.qty } :: xs
    else x :: addItem xs it

/-- Fold one record's line items into a summary entry: each item is merged
into `items` and its quantity added to `totalQuantity`. -/
def addOrder (s : Summary) (items : List OrderItem) : Summary :=
  items.foldl
    (fun s it =>
      { s with items := addItem s.items it,
               totalQuantity := s.totalQuantity + it.qty })
    s

/-- Membership test `key in summary` on the association-list model of the
JS object. -/
def hasKey : List (String × Summary) → String → Bool
  | [], _ => false
  | (k, _) :: rest, key => k = key || hasKey rest key

/-- Update the (unique) entry stored under `key`, leaving its position in
insertion order unchanged, as mutation of `summary[key]` does. -/
def modifyKey : List (String × Summary) → String → (Summary → Summary) →
    List (String × Summary)
  | [], _, _ => []
  | (k, s) :: rest, key, f =>
    if k = key then (k, f s) :: rest else (k, s) :: modifyKey rest key f

/-- Processing of one record by `getOrdersSummary`: create the summary
entry for the record's `name_phone` key if absent (appended, preserving
JS object insertion order), then merge the record's line items into it. -/
def summaryStep (acc : List (String × Summary)) (o : OrderRec) :
    List (String × Summary) :=
  let key := custKey o.name o.phone
  let acc' :=
    if hasKey acc key then acc
    else acc ++ [(key, ⟨o.name, o.phone, [], 0⟩)]
  modifyKey acc' key (fun s => addOrder s o.orders)

/-- Model of `getOrdersSummary` (mockData.js): group the records by the string
`` `${name}_${phone}` `` and return `Object.values` of the accumulated
summaries. -/
def getOrdersSummary (orders : List OrderRec) : List Summary :=
  (orders.foldl summaryStep []).map Prod.snd

/-! ## Aggregator: `getTopItems` -/

/-- Update `itemCounts[item] = (itemCounts[item] || 0) + qty` on the
association-list model of the JS object. -/
def bumpQty : List (String × Nat) → String → Nat → List (String × Nat)
  | [], k, q => [(k, q)]
  | (k', c) :: rest, k, q =>
    if k' = k then (k', c + q) :: rest else (k', c) :: bumpQty rest k q

/-- The `Object.entries(itemCounts)` list: accumulated quantity per raw
item name, keys in first-seen order. -/
def itemEntries (orders : List OrderRec) : List (String × Nat) :=
  orders.foldl
    (fun acc o => o.orders.foldl (fun acc it => bumpQty acc it.item it.qty) acc)
    []

/-- The `getTopItems` comparator `([,a],[,b]) => b - a`:
`a` comes strictly before `b` iff `b.count < a.count`. -/
def topBefore (a b : String × Nat) : Bool := decide (b.2 < a.2)

/-- Model of `arr.slice(0, e)` for an integer `e`: a negative `e` counts
from the end (`max(len + e, 0)`), a non-negative `e` is clamped to the
length. -/
def jsSliceTo (l : List α) (e : Int) : List α :=
  l.take (if e < 0 then ((l.length : Int) + e).toNat else e.toNat)

/-- Model of `getTopItems` (mockData.js): entries of the per-item quantity totals,
sorted descending by quantity (stable), then `slice(0, limit)`.  An entry
`(item, count)` models the object `{ item, count }`. -/
def getTopItems (orders : List OrderRec) (limit : Int) : List (String × Nat) :=
  jsSliceTo (stableSort topBefore (itemEntries orders)) limit

/-! ## Time bucketer: `getOrdersOverTime` -/

/-- The bucket key `` `${hour}${period}` ``: the raw text of `time` before
the first colon, then `'PM'` if the string contains `"PM"` else `'AM'`. -/
def bucketKey (time : String) : String :=
  hourText time ++ (if strIncludes time "PM" then "PM" else "AM")

/-- Update `timeData[timeKey] = (timeData[timeKey] || 0) + 1` on the
association-list model of the JS object. -/
def bumpCount : List (String × Nat) → String → List (String × Nat)
  | [], k => [(k, 1)]
  | (k', c) :: rest, k =>
    if k' = k then (k', c + 1) :: rest else (k', c) :: bumpCount rest k

/-- The unsorted `Object.entries(timeData)` list of `getOrdersOverTime`,
keys in first-seen order. -/
def timeCounts (orders : List OrderRec) : List (String × Nat) :=
  orders.foldl (fun acc o => bumpCount acc (bucketKey o.time)) []

/-- The sort helper `getHour` of `getOrdersOverTime`:
`parseInt(timeStr.slice(0, -2))`, then `+12` when the last two characters
are `"PM"` and the hour is not 12.  `none` models a `NaN` hour. -/
def getHourOfKey (k : String) : Option Int :=
  match jsParseIntOpt (strDropLast k 2) with
  | none => none
  | some h =>
    some (if strLastChars k 2 = "PM" ∧ h ≠ 12 then (h : Int) + 12 else (h : Int))

/-- The `getOrdersOverTime` comparator `getHour(a.time) - getHour(b.time)`:
strictly before iff the difference is negative; a `NaN` comparator value is
coerced to `+0` by the sort (elements treated as equal). -/
def timeEntryBefore (a b : String × Nat) : Bool :=
  match getHourOfKey a.1, getHourOfKey b.1 with
  | some x, some y => decide (x - y < 0)
  | _, _ => false

/-- Model of `getOrdersOverTime` (mockData.js): count records per bucket key, then
sort the entries by the 24-hour value `getHour` computes.  An entry
`(time, n)` models the object `{ time, orders: n }`. -/
def getOrdersOverTime (orders : List OrderRec) : List (String × Nat) :=
  stableSort timeEntryBefore (timeCounts orders)

/-! ## Flattener: `flattenedOrders` (OrdersTable component) -/

/-- One flattened table row: one (record, line item) pair. -/
structure FlatRow where
  id : String
  name : String
  phone : String
  item : String
  quantity : Nat
  time : String
  date : String
deriving DecidableEq

/-- Model of `flattenedOrders`: `orders.flatMap(order => order.orders.map(item =>
({ id: `${order.id}-${item.item}`, ... })))`. -/
def flattenedOrders (orders : List OrderRec) : List FlatRow :=
  orders.flatMap fun o =>
    o.orders.map fun it =>
      { id := toString o.id ++ "-" ++ it.item
        name := o.name
        phone := o.phone
        item := it.item
        quantity := it.qty
        time := o.time
        date := o.date }

/-! ## View engine: `filteredAndSortedOrders` (OrdersTable component) -/

/-- The sortable columns (the `sortConfig.key` values the table uses are
`name`, `phone`, `item`, `quantity`, `time`; the remaining row fields are
included for completeness — `sortConfig.key` is never null, its initial
value is `'time'`). -/
inductive SortKey
  | id | name | phone | item | quantity | time | date
deriving DecidableEq

/-- The sort direction `sortConfig.direction`. -/
inductive SortDir
  | asc | desc
deriving DecidableEq

/-- Comparator on string fields: both sides lowercased, then compared with
`<` / `>`; `desc` flips the outcome. -/
def strBefore (dir : SortDir) (s t : String) : Bool :=
  match dir with
  | .asc => decide (lowerStr s < lowerStr t)
  | .desc => decide (lowerStr t < lowerStr s)

/-- Comparator on the numeric field `quantity`. -/
def natBefore (dir : SortDir) (m n : Nat) : Bool :=
  match dir with
  | .asc => decide (m < n)
  | .desc => decide (n < m)

/-- The row comparator of `filteredAndSortedOrders`: `a[key]` against
`b[key]`, lowercasing string values (`typeof aValue === 'string'`),
returning "strictly before". -/
def rowBefore (key : SortKey) (dir : SortDir) (a b : FlatRow) : Bool :=
  match key with
  | .id => strBefore dir a.id b.id
  | .name => strBefore dir a.name b.name
  | .phone => strBefore dir a.phone b.phone
  | .item => strBefore dir a.item b.item
  | .quantity => natBefore dir a.quantity b.quantity
  | .time => strBefore dir a.time b.time
  | .date => strBefore dir a.date b.date

/-- The value the comparator actually orders rows by: the lowercased
string field, or the numeric `quantity`.  Two rows with equal `normKey`
are "equal keys" for the sort. -/
def normKey (key : SortKey) (r : FlatRow) : String ⊕ Nat :=
  match key with
  | .id => .inl (lowerStr r.id)
  | .name => .inl (lowerStr r.name)
  | .phone => .inl (lowerStr r.phone)
  | .item => .inl (lowerStr r.item)
  | .quantity => .inr r.quantity
  | .time => .inl (lowerStr r.time)
  | .date => .inl (lowerStr r.date)

/-- The sort step of `filteredAndSortedOrders`. -/
def sortRows (key : SortKey) (dir : SortDir) (rows : List FlatRow) :
    List FlatRow :=
  stableSort (rowBefore key dir) rows

/-- The search filter: case-insensitive substring on `name` and `item`,
raw substring of the raw search text on `phone`. -/
def applySearch (search : String) (rows : List FlatRow) : List FlatRow :=
  rows.filter fun r =>
    strIncludes (lowerStr r.name) (lowerStr search) ||
    strIncludes r.phone search ||
    strIncludes (lowerStr r.item) (lowerStr search)

/-- The item-type filter: exact match `order.item === filters.itemType`. -/
def applyItemType (itemType : String) (rows : List FlatRow) : List FlatRow :=
  rows.filter fun r => decide (r.item = itemType)

/-- Model of `filteredAndSortedOrders`, with the array mutation made explicit.
`let filtered = flattenedOrders` makes `filtered` an alias of the
flattener's array; each truthy filter replaces it with a fresh array
(tracked by the boolean); `Array.prototype.sort` then mutates in place
whichever array `filtered` denotes.  The first component is the content of
the `flattenedOrders` array after the call, the second the returned list. -/
def filteredAndSortedOrders (flattened : List FlatRow)
    (search itemType : String) (key : SortKey) (dir : SortDir) :
    List FlatRow × List FlatRow :=
  let step1 : List FlatRow × Bool :=
    if search = "" then (flattened, false) else (applySearch search flattened, true)
  let step2 : List FlatRow × Bool :=
    if itemType = "" then step1 else (applyItemType itemType step1.1, true)
  let sorted := sortRows key dir step2.1
  (if step2.2 then flattened else sorted, sorted)

/-! ## Derived measures used by the statements -/

/-- Sum of the line-item quantities of one record's item list. -/
def sumQty (items : List OrderItem) : Nat := (items.map OrderItem.qty).sum

/-- Sum of `totalQuantity` over the entries of the summary accumulator. -/
def sumTotals (l : List (String × Summary)) : Nat :=
  (l.map (fun e => e.2.totalQuantity)).sum

/-! ## Concrete inputs used by counterexamples and witnesses -/

/-- First record of the spec's three-record example scenario. -/
def exRaj : OrderRec :=
  ⟨1, "Raj", "9999999999", [⟨"Shirt", 10⟩, ⟨"Jeans", 5⟩], "10:05 AM", "2024-10-17"⟩

/-- Second record of the example scenario: same phone, different name. -/
def exRajKumar : OrderRec :=
  ⟨2, "Raj Kumar", "9999999999", [⟨"Shirt", 2⟩], "11:20 AM", "2024-10-17"⟩

/-- Third record of the example scenario. -/
def exPriya : OrderRec :=
  ⟨3, "Priya", "8888888888", [⟨"Saree", 3⟩], "11:20 AM", "2024-10-17"⟩

/-- The spec's three-record example input. -/
def exRecords : List OrderRec := [exRaj, exRajKumar, exPriya]

/-- A record that repeats an item name among its line items. -/
def exDupItems : OrderRec :=
  ⟨1, "Asha", "9999999999", [⟨"Shirt", 1⟩, ⟨"Shirt", 2⟩], "10:05 AM", "2024-10-17"⟩

/-- A record with the zero-padded afternoon time of the spec's example. -/
def exPadded : OrderRec :=
  ⟨1, "Asha", "9999999999", [⟨"Shirt", 1⟩], "02:00 PM", "2024-10-17"⟩

/-- A record whose time has no AM/PM designator and an hour outside 1–12. -/
def exMalformed : OrderRec :=
  ⟨1, "Asha", "9999999999", [⟨"Shirt", 1⟩], "25:00", "2024-10-17"⟩

/-- Two records, one just after midnight and one in the morning. -/
def exMidnight : List OrderRec :=
  [⟨1, "Asha", "9999999999", [⟨"Shirt", 1⟩], "12:05 AM", "2024-10-17"⟩,
   ⟨2, "Ravi", "8888888888", [⟨"Shirt", 1⟩], "09:00 AM", "2024-10-17"⟩]

/-- One record carrying two distinct item names. -/
def exTwoItems : List OrderRec :=
  [⟨1, "Asha", "9999999999", [⟨"A", 1⟩, ⟨"B", 2⟩], "10:05 AM", "2024-10-17"⟩]

/-! # Lemmas

## Stable sort -/

theorem insertStable_perm (b4 : α → α → Bool) (x : α) :
    ∀ l : List α, List.Perm (insertStable b4 x l) (x :: l)
  | [] => List.Perm.refl _
  | y :: ys => by
    unfold insertStable
    split
    · exact ((insertStable_perm b4 x ys).cons y).trans (List.Perm.swap x y ys)
    · exact List.Perm.refl _

theorem stableSort_perm (b4 : α → α → Bool) : ∀ l : List α, List.Perm (stableSort b4 l) l
  | [] => List.Perm.refl _
  | x :: xs => (insertStable_perm b4 x _).trans ((stableSort_perm b4 xs).cons x)

theorem insertStable_pairwise {b4 : α → α → Bool}
    (hA : ∀ a b, b4 a b = true → b4 b a = false)
    (hT : ∀ a b c, b4 a b = false → b4 b c = false → b4 a c = false)
    (x : α) :
    ∀ l : List α, l.Pairwise (fun a b => b4 b a = false) →
      (insertStable b4 x l).Pairwise (fun a b => b4 b a = false)
  | [], _ => by simp [insertStable]
  | y :: ys, hp => by
    rw [List.pairwise_cons] at hp
    obtain ⟨h1, h2⟩ := hp
    unfold insertStable
    split
    case isTrue h =>
      rw [List.pairwise_cons]
      refine ⟨?_, insertStable_pairwise hA hT x ys h2⟩
      intro z hz
      rcases List.mem_cons.1 (((insertStable_perm b4 x ys).mem_iff).1 hz) with rfl | hzy
      · exact hA y z h
      · exact h1 z hzy
    case isFalse h =>
      have h' : b4 y x = false := by simpa using h
      rw [List.pairwise_cons]
      refine ⟨?_, List.pairwise_cons.2 ⟨h1, h2⟩⟩
      intro z hz
      rcases List.mem_cons.1 hz with rfl | hzy
      · exact h'
      · exact hT z y x (h1 z hzy) h'

theorem stableSort_pairwise {b4 : α → α → Bool}
    (hA : ∀ a b, b4 a b = true → b4 b a = false)
    (hT : ∀ a b c, b4 a b = false → b4 b c = false → b4 a c = false) :
    ∀ l : List α, (stableSort b4 l).Pairwise (fun a b => b4 b a = false)
  | [] => by simp [stableSort]
  | x :: xs =>
    insertStable_pairwise hA hT x _ (stableSort_pairwise hA hT xs)

theorem filter_insertStable_pos {b4 : α → α → Bool} (q : α → Bool)
    (hq : ∀ a b, q a = true → q b = true → b4 a b = false)
    (x : α) (hx : q x = true) :
    ∀ l : List α, (insertStable b4 x l).filter q = x :: l.filter q
  | [] => by simp [insertStable, hx]
  | y :: ys => by
    unfold insertStable
    split
    case isTrue h =>
      have hy : q y = false := by
        cases hqy : q y
        · rfl
        · rw [hq y x hqy hx] at h; exact absurd h (by simp)
      simp [List.filter_cons, hy, hx, filter_insertStable_pos q hq x hx ys]
    case isFalse h =>
      simp [List.filter_cons, hx]

theorem filter_insertStable_neg {b4 : α → α → Bool} (q : α → Bool)
    (x : α) (hx : q x = false) :
    ∀ l : List α, (insertStable b4 x l).filter q = l.filter q
  | [] => by simp [insertStable, hx]
  | y :: ys => by
    unfold insertStable
    split <;> simp [List.filter_cons, hx, filter_insertStable_neg q x hx ys]

theorem filter_stableSort {b4 : α → α → Bool} (q : α → Bool)
    (hq : ∀ a b, q a = true → q b = true → b4 a b = false) :
    ∀ l : List α, (stableSort b4 l).filter q = l.filter q
  | [] => rfl
  | x :: xs => by
    unfold stableSort
    cases hx : q x
    · rw [filter_insertStable_neg q x hx, filter_stableSort q hq xs]
      simp [List.filter_cons, hx]
    · rw [filter_insertStable_pos q hq x hx, filter_stableSort q hq xs]
      simp [List.filter_cons, hx]

/-! ## Aggregator: quantity bookkeeping -/

theorem addOrder_total (items : List OrderItem) :
    ∀ s : Summary, (addOrder s items).totalQuantity =
      s.totalQuantity + sumQty items := by
  induction items with
  | nil => intro s; simp [addOrder, sumQty]
  | cons it its ih =>
    intro s
    have h := ih { s with items := addItem s.items it,
                          totalQuantity := s.totalQuantity + it.qty }
    simp only [addOrder, List.foldl_cons] at h ⊢
    rw [h]
    simp [sumQty]
    omega

theorem addOrder_name (items : List OrderItem) :
    ∀ s : Summary, (addOrder s items).name = s.name := by
  induction items with
  | nil => intro s; simp [addOrder]
  | cons it its ih =>
    intro s
    have h := ih { s with items := addItem s.items it,
                          totalQuantity := s.totalQuantity + it.qty }
    simp only [addOrder, List.foldl_cons] at h ⊢
    rw [h]

theorem addOrder_phone (items : List OrderItem) :
    ∀ s : Summary, (addOrder s items).phone = s.phone := by
  induction items with
  | nil => intro s; simp [addOrder]
  | cons it its ih =>
    intro s
    have h := ih { s with items := addItem s.items it,
                          totalQuantity := s.totalQuantity + it.qty }
    simp only [addOrder, List.foldl_cons] at h ⊢
    rw [h]

theorem sumTotals_append (l l' : List (String × Summary)) :
    sumTotals (l ++ l') = sumTotals l + sumTotals l' := by
  simp [sumTotals]

theorem sumTotals_modifyKey (k : String) (f : Summary → Summary) (d : Nat)
    (hf : ∀ s, (f s).totalQuantity = s.totalQuantity + d) :
    ∀ l : List (String × Summary), hasKey l k = true →
      sumTotals (modifyKey l k f) = sumTotals l + d := by
  intro l
  induction l with
  | nil => intro h; simp [hasKey] at h
  | cons e rest ih =>
    obtain ⟨k', s⟩ := e
    intro h
    by_cases hk : k' = k
    · simp [modifyKey, hk, sumTotals, hf]
      omega
    · have hr : hasKey rest k = true := by
        simpa [hasKey, hk] using h
      simp [modifyKey, hk, sumTotals] at ih ⊢
      rw [ih hr]
      omega

theorem hasKey_append_single (k : String) (s : Summary) :
    ∀ l : List (String × Summary), hasKey (l ++ [(k, s)]) k = true := by
  intro l
  induction l with
  | nil => simp [hasKey]
  | cons e rest ih => obtain ⟨k', s'⟩ := e; simp [hasKey, ih]

theorem summaryStep_sum (acc : List (String × Summary)) (o : OrderRec) :
    sumTotals (summaryStep acc o) = sumTotals acc + sumQty o.orders := by
  unfold summaryStep
  dsimp only
  have hf : ∀ s : Summary, (addOrder s o.orders).totalQuantity =
      s.totalQuantity + sumQty o.orders := addOrder_total o.orders
  by_cases h : hasKey acc (custKey o.name o.phone) = true
  · rw [if_pos h]
    exact sumTotals_modifyKey _ _ _ hf acc h
  · rw [if_neg h]
    rw [sumTotals_modifyKey _ _ _ hf _
      (hasKey_append_single (custKey o.name o.phone) _ acc)]
    rw [sumTotals_append]
    simp [sumTotals]

theorem foldl_summaryStep_sum :
    ∀ (orders : List OrderRec) (acc : List (String × Summary)),
      sumTotals (orders.foldl summaryStep acc) =
        sumTotals acc + (orders.map (fun o => sumQty o.orders)).sum := by
  intro orders
  induction orders with
  | nil => intro acc; simp
  | cons o os ih =>
    intro acc
    simp only [List.foldl_cons, List.map_cons, List.sum_cons]
    rw [ih (summaryStep acc o), summaryStep_sum]
    omega

/-! ## Aggregator: grouping-key bookkeeping -/

theorem modifyKey_map_fst (k : String) (f : Summary → Summary) :
    ∀ l : List (String × Summary),
      (modifyKey l k f).map Prod.fst = l.map Prod.fst := by
  intro l
  induction l with
  | nil => rfl
  | cons e rest ih =>
    obtain ⟨k', s⟩ := e
    by_cases hk : k' = k <;> simp [modifyKey, hk, ih]

theorem hasKey_iff (k : String) :
    ∀ l : List (String × Summary),
      hasKey l k = true ↔ k ∈ l.map Prod.fst := by
  intro l
  induction l with
  | nil => simp [hasKey]
  | cons e rest ih =>
    obtain ⟨k', s⟩ := e
    simp only [hasKey, List.map_cons, List.mem_cons, Bool.or_eq_true,
      decide_eq_true_eq, ih]
    exact ⟨fun h => h.elim (fun e => Or.inl e.symm) Or.inr,
      fun h => h.elim (fun e => Or.inl e.symm) Or.inr⟩

theorem mem_modifyKey (k : String) (f : Summary → Summary) :
    ∀ l : List (String × Summary), ∀ e ∈ modifyKey l k f,
      e ∈ l ∨ ∃ s, (k, s) ∈ l ∧ e = (k, f s) := by
  intro l
  induction l with
  | nil => intro e he; simp [modifyKey] at he
  | cons hd rest ih =>
    obtain ⟨k', s⟩ := hd
    intro e he
    by_cases hk : k' = k
    · subst hk
      rw [modifyKey, if_pos rfl] at he
      rcases List.mem_cons.1 he with rfl | hrest
      · exact Or.inr ⟨s, List.mem_cons_self _ _, rfl⟩
      · exact Or.inl (List.mem_cons_of_mem _ hrest)
    · rw [modifyKey, if_neg hk] at he
      rcases List.mem_cons.1 he with rfl | hrest
      · exact Or.inl (List.mem_cons_self _ _)
      · rcases ih e hrest with h | ⟨s', hs', rfl⟩
        · exact Or.inl (List.mem_cons_of_mem _ h)
        · exact Or.inr ⟨s', List.mem_cons_of_mem _ hs', rfl⟩

theorem summaryStep_map_fst (acc : List (String × Summary)) (o : OrderRec) :
    (summaryStep acc o).map Prod.fst =
      if hasKey acc (custKey o.name o.phone) then acc.map Prod.fst
      else acc.map Prod.fst ++ [custKey o.name o.phone] := by
  unfold summaryStep
  dsimp only
  by_cases h : hasKey acc (custKey o.name o.phone) = true
  · rw [if_pos h, if_pos h, modifyKey_map_fst]
  · rw [if_neg h, if_neg h, modifyKey_map_fst, List.map_append]
    rfl

theorem mem_fst_summaryStep (acc : List (String × Summary)) (o : OrderRec)
    (k : String) (hk : k ∈ acc.map Prod.fst) :
    k ∈ (summaryStep acc o).map Prod.fst := by
  rw [summaryStep_map_fst]
  split
  · exact hk
  · exact List.mem_append_left _ hk

theorem key_mem_fst_summaryStep (acc : List (String × Summary)) (o : OrderRec) :
    custKey o.name o.phone ∈ (summaryStep acc o).map Prod.fst := by
  rw [summaryStep_map_fst]
  split
  case isTrue h => exact (hasKey_iff _ acc).1 h
  case isFalse h => exact List.mem_append_right _ (List.mem_singleton.2 rfl)

theorem mem_fst_foldl_mono :
    ∀ (orders : List OrderRec) (acc : List (String × Summary)) (k : String),
      k ∈ acc.map Prod.fst →
      k ∈ (orders.foldl summaryStep acc).map Prod.fst := by
  intro orders
  induction orders with
  | nil => intro acc k hk; exact hk
  | cons o os ih =>
    intro acc k hk
    exact ih (summaryStep acc o) k (mem_fst_summaryStep acc o k hk)

theorem mem_fst_foldl (orders : List OrderRec) (o : OrderRec) (ho : o ∈ orders) :
    ∀ acc : List (String × Summary),
      custKey o.name o.phone ∈ (orders.foldl summaryStep acc).map Prod.fst := by
  induction orders with
  | nil => cases ho
  | cons o' os ih =>
    intro acc
    rcases List.mem_cons.1 ho with rfl | ho'
    · exact mem_fst_foldl_mono os (summaryStep acc o) _
        (key_mem_fst_summaryStep acc o)
    · exact ih ho' (summaryStep acc o')

theorem nodup_fst_summaryStep (acc : List (String × Summary)) (o : OrderRec)
    (h : (acc.map Prod.fst).Nodup) :
    ((summaryStep acc o).map Prod.fst).Nodup := by
  rw [summaryStep_map_fst]
  split
  · exact h
  case isFalse hk =>
    have : custKey o.name o.phone ∉ acc.map Prod.fst := by
      intro hmem
      exact hk ((hasKey_iff _ acc).2 hmem)
    simp [List.nodup_append, h, this]

theorem nodup_fst_foldl :
    ∀ (orders : List OrderRec) (acc : List (String × Summary)),
      (acc.map Prod.fst).Nodup →
      ((orders.foldl summaryStep acc).map Prod.fst).Nodup := by
  intro orders
  induction orders with
  | nil => intro acc h; exact h
  | cons o os ih =>
    intro acc h
    exact ih (summaryStep acc o) (nodup_fst_summaryStep acc o h)

theorem countP_fst_eq_one (k : String) :
    ∀ l : List (String × Summary), (l.map Prod.fst).Nodup →
      k ∈ l.map Prod.fst →
      l.countP (fun e => decide (e.1 = k)) = 1 := by
  intro l
  induction l with
  | nil => intro _ h; simp at h
  | cons e rest ih =>
    obtain ⟨k', s⟩ := e
    intro hnd hmem
    simp only [List.map_cons, List.nodup_cons] at hnd
    obtain ⟨hnotin, hndr⟩ := hnd
    by_cases hk : k' = k
    · subst hk
      rw [List.countP_cons]
      have hzero : rest.countP (fun e => decide (e.1 = k')) = 0 := by
        rw [List.countP_eq_zero]
        intro a ha
        simp only [decide_eq_true_eq]
        intro hak
        exact hnotin (hak ▸ List.mem_map_of_mem Prod.fst ha)
      simp [hzero]
    · have hmem' : k ∈ rest.map Prod.fst := by
        rcases List.mem_cons.1 hmem with h | h
        · exact absurd h.symm hk
        · exact h
      rw [List.countP_cons]
      simp [hk, ih hndr hmem']

theorem summary_key_inv :
    ∀ (orders : List OrderRec) (acc : List (String × Summary)),
      (∀ e ∈ acc, e.1 = custKey e.2.name e.2.phone) →
      ∀ e ∈ orders.foldl summaryStep acc, e.1 = custKey e.2.name e.2.phone := by
  intro orders
  induction orders with
  | nil => intro acc h; exact h
  | cons o os ih =>
    intro acc h
    refine ih (summaryStep acc o) ?_
    intro e he
    unfold summaryStep at he
    dsimp only at he
    have hacc' : ∀ e ∈ (if hasKey acc (custKey o.name o.phone) = true then acc
        else acc ++ [(custKey o.name o.phone,
          ⟨o.name, o.phone, [], 0⟩)]), e.1 = custKey e.2.name e.2.phone := by
      intro e' he'
      split at he'
      · exact h e' he'
      · rcases List.mem_append.1 he' with h' | h'
        · exact h e' h'
        · rw [List.mem_singleton.1 h']
    rcases mem_modifyKey _ _ _ e he with hmem | ⟨s', hs', rfl⟩
    · exact hacc' e hmem
    · have hk : custKey o.name o.phone = custKey s'.name s'.phone :=
        hacc' _ hs'
      show custKey o.name o.phone =
        custKey (addOrder s' o.orders).name (addOrder s' o.orders).phone
      rw [addOrder_name, addOrder_phone]
      exact hk

/-! ## Time bucketer: counting bookkeeping -/

theorem bumpCount_sum (k : String) :
    ∀ l : List (String × Nat),
      ((bumpCount l k).map Prod.snd).sum = (l.map Prod.snd).sum + 1 := by
  intro l
  induction l with
  | nil => simp [bumpCount]
  | cons e rest ih =>
    obtain ⟨k', c⟩ := e
    by_cases hk : k' = k <;> simp [bumpCount, hk, ih] <;> omega

theorem bumpCount_map_fst (k : String) :
    ∀ l : List (String × Nat),
      (bumpCount l k).map Prod.fst =
        if k ∈ l.map Prod.fst then l.map Prod.fst
        else l.map Prod.fst ++ [k] := by
  intro l
  induction l with
  | nil => simp [bumpCount]
  | cons e rest ih =>
    obtain ⟨k', c⟩ := e
    by_cases hk : k' = k
    · subst hk
      simp [bumpCount]
    · have hk' : ¬ k = k' := fun h => hk h.symm
      by_cases hm : k ∈ rest.map Prod.fst <;>
        simp [bumpCount, hk, hk', hm, ih]

theorem bumpCount_fst_mem (k : String) (l : List (String × Nat)) :
    k ∈ (bumpCount l k).map Prod.fst := by
  rw [bumpCount_map_fst]
  split
  case isTrue h => exact h
  case isFalse h => exact List.mem_append_right _ (List.mem_singleton.2 rfl)

theorem bumpCount_fst_mono (k k' : String) (l : List (String × Nat))
    (h : k' ∈ l.map Prod.fst) : k' ∈ (bumpCount l k).map Prod.fst := by
  rw [bumpCount_map_fst]
  split
  · exact h
  · exact List.mem_append_left _ h

theorem foldl_bumpCount_sum :
    ∀ (orders : List OrderRec) (acc : List (String × Nat)),
      (((orders.foldl (fun acc o => bumpCount acc (bucketKey o.time)) acc)).map
          Prod.snd).sum = (acc.map Prod.snd).sum + orders.length := by
  intro orders
  induction orders with
  | nil => intro acc; simp
  | cons o os ih =>
    intro acc
    simp only [List.foldl_cons, List.length_cons]
    rw [ih, bumpCount_sum]
    omega

theorem foldl_bumpCount_mem_mono :
    ∀ (orders : List OrderRec) (acc : List (String × Nat)) (k : String),
      k ∈ acc.map Prod.fst →
      k ∈ ((orders.foldl (fun acc o => bumpCount acc (bucketKey o.time))
        acc)).map Prod.fst := by
  intro orders
  induction orders with
  | nil => intro acc k h; exact h
  | cons o os ih =>
    intro acc k h
    exact ih _ k (bumpCount_fst_mono _ k acc h)

theorem bucketKey_mem_timeCounts :
    ∀ (orders : List OrderRec) (o : OrderRec), o ∈ orders →
      ∀ acc : List (String × Nat),
        bucketKey o.time ∈
          ((orders.foldl (fun acc o => bumpCount acc (bucketKey o.time))
            acc)).map Prod.fst := by
  intro orders
  induction orders with
  | nil => intro o ho; cases ho
  | cons o' os ih =>
    intro o ho acc
    rcases List.mem_cons.1 ho with rfl | ho'
    · exact foldl_bumpCount_mem_mono os _ _ (bumpCount_fst_mem _ acc)
    · exact ih o ho' _

/-! ## Comparator facts -/

theorem topBefore_asymm (a b : String × Nat) (h : topBefore a b = true) :
    topBefore b a = false := by
  simp only [topBefore, decide_eq_true_eq, decide_eq_false_iff_not] at h ⊢
  omega

theorem topBefore_negtrans (a b c : String × Nat)
    (h1 : topBefore a b = false) (h2 : topBefore b c = false) :
    topBefore a c = false := by
  simp only [topBefore, decide_eq_false_iff_not] at h1 h2 ⊢
  omega

theorem strBefore_asymm (dir : SortDir) (s t : String)
    (h : strBefore dir s t = true) : strBefore dir t s = false := by
  cases dir <;>
    (simp only [strBefore, decide_eq_true_eq, decide_eq_false_iff_not] at h ⊢;
     exact lt_asymm h)

theorem strBefore_negtrans (dir : SortDir) (s t u : String)
    (h1 : strBefore dir s t = false) (h2 : strBefore dir t u = false) :
    strBefore dir s u = false := by
  cases dir
  case asc =>
    simp only [strBefore, decide_eq_false_iff_not] at h1 h2 ⊢
    exact not_lt.2 ((not_lt.1 h2).trans (not_lt.1 h1))
  case desc =>
    simp only [strBefore, decide_eq_false_iff_not] at h1 h2 ⊢
    exact not_lt.2 ((not_lt.1 h1).trans (not_lt.1 h2))

theorem strBefore_of_lower_eq (dir : SortDir) (s t : String)
    (h : lowerStr s = lowerStr t) : strBefore dir s t = false := by
  cases dir
  case asc => simp only [strBefore]; rw [h]; exact decide_eq_false (lt_irrefl _)
  case desc => simp only [strBefore]; rw [h]; exact decide_eq_false (lt_irrefl _)

theorem natBefore_asymm (dir : SortDir) (m n : Nat)
    (h : natBefore dir m n = true) : natBefore dir n m = false := by
  cases dir <;>
    (simp only [natBefore, decide_eq_true_eq, decide_eq_false_iff_not] at h ⊢;
     omega)

theorem natBefore_negtrans (dir : SortDir) (m n p : Nat)
    (h1 : natBefore dir m n = false) (h2 : natBefore dir n p = false) :
    natBefore dir m p = false := by
  cases dir <;>
    (simp only [natBefore, decide_eq_false_iff_not] at h1 h2 ⊢; omega)

theorem rowBefore_asymm (key : SortKey) (dir : SortDir) (a b : FlatRow)
    (h : rowBefore key dir a b = true) : rowBefore key dir b a = false := by
  cases key <;>
    first
      | exact strBefore_asymm dir _ _ h
      | exact natBefore_asymm dir _ _ h

theorem rowBefore_negtrans (key : SortKey) (dir : SortDir) (a b c : FlatRow)
    (h1 : rowBefore key dir a b = false) (h2 : rowBefore key dir b c = false) :
    rowBefore key dir a c = false := by
  cases key <;>
    first
      | exact strBefore_negtrans dir _ _ _ h1 h2
      | exact natBefore_negtrans dir _ _ _ h1 h2

theorem rowBefore_of_normKey_eq (key : SortKey) (dir : SortDir) (a b : FlatRow)
    (h : normKey key a = normKey key b) : rowBefore key dir a b = false := by
  cases key <;>
    simp only [normKey, Sum.inl.injEq, Sum.inr.injEq] at h <;>
    first
      | exact strBefore_of_lower_eq dir _ _ h
      | (cases dir <;>
          (simp only [rowBefore, natBefore]; rw [h];
           exact decide_eq_false (lt_irrefl _)))


theorem countP_eq_of_forall_mem {γ : Type} (p q : γ → Bool) :
    ∀ l : List γ, (∀ a ∈ l, p a = q a) → l.countP p = l.countP q := by
  intro l
  induction l with
  | nil => intro _; rfl
  | cons a rest ih =>
    intro h
    rw [List.countP_cons, List.countP_cons, h a (List.mem_cons_self _ _),
      ih (fun b hb => h b (List.mem_cons_of_mem _ hb))]

/-! # Claims -/

/-- Claim C3: for every input sequence of order records, the sum of
`totalQuantity` over all summaries returned by `getOrdersSummary` equals
the sum of every line-item quantity over all input records. -/
theorem getOrdersSummary_sum_invariant (orders : List OrderRec) :
    ((getOrdersSummary orders).map Summary.totalQuantity).sum =
      (orders.map (fun o => sumQty o.orders)).sum := by
  unfold getOrdersSummary
  rw [List.map_map]
  have h := foldl_summaryStep_sum orders []
  simpa [sumTotals, Function.comp] using h

/-- Claim C1, counterexample: on the spec's three-record example,
`getOrdersSummary` returns three summaries, not two — the two records
sharing phone `9999999999` but spelled `"Raj"` and `"Raj Kumar"` land in
distinct groups, and the `"Raj"` summary totals 15, not 17. -/
theorem getOrdersSummary_phone_grouping_cx :
    getOrdersSummary exRecords =
      [⟨"Raj", "9999999999", [⟨"Shirt", 10⟩, ⟨"Jeans", 5⟩], 15⟩,
       ⟨"Raj Kumar", "9999999999", [⟨"Shirt", 2⟩], 2⟩,
       ⟨"Priya", "8888888888", [⟨"Saree", 3⟩], 3⟩] ∧
    (getOrdersSummary exRecords).length ≠ 2 := by decide

/-- Claim C1, amended: `getOrdersSummary` groups records by the composite
string `` `${name}_${phone}` `` — every input record contributes to exactly
one summary, the unique one whose `name_phone` key equals the record's.
Records sharing a phone under differently spelled names therefore yield
distinct summaries. -/
theorem getOrdersSummary_groups_by_name_phone (orders : List OrderRec)
    (o : OrderRec) (ho : o ∈ orders) :
    (getOrdersSummary orders).countP
      (fun s => decide (custKey s.name s.phone = custKey o.name o.phone)) = 1 := by
  unfold getOrdersSummary
  rw [List.countP_map]
  have hinv := summary_key_inv orders [] (by intro e he; cases he)
  have hnd := nodup_fst_foldl orders [] (by simp)
  have hmem := mem_fst_foldl orders o ho []
  rw [countP_eq_of_forall_mem _ (fun e => decide (e.1 = custKey o.name o.phone))
    (orders.foldl summaryStep [])
    (fun e he => by
      simp only [Function.comp]
      rw [hinv e he])]
  exact countP_fst_eq_one _ _ hnd hmem

/-- Witness for the amended Claim C1, at the example input and its first
record. -/
theorem getOrdersSummary_groups_by_name_phone_witness :
    (getOrdersSummary exRecords).countP
      (fun s => decide (custKey s.name s.phone = custKey exRaj.name exRaj.phone)) = 1 :=
  getOrdersSummary_groups_by_name_phone exRecords exRaj (by decide)

/-- Claim C2: the flattener's composite row id `` `${order.id}-${item.item}` ``
is not unique when a record repeats an item name among its line items — the
record with id 1 and two `"Shirt"` line items yields two rows with the id
`"1-Shirt"`. -/
theorem flattenedOrders_id_collision :
    (flattenedOrders [exDupItems]).map FlatRow.id = ["1-Shirt", "1-Shirt"] ∧
    ¬ ((flattenedOrders [exDupItems]).map FlatRow.id).Nodup := by decide

/-- Claim C4, counterexample: a record with `timeOfDay` `"02:00 PM"` is
bucketed under `"02PM"`, not the unpadded `"2PM"` the claim requires — the
bucket key keeps the zero padding of the input. -/
theorem getOrdersOverTime_zero_padding_cx :
    getOrdersOverTime [exPadded] = [("02PM", 1)] ∧ "02PM" ≠ "2PM" := by decide

/-- Claim C4, amended: the bucket key of a record is the raw text of its
`timeOfDay` before the first colon — zero padding preserved — followed by
the designator (`"PM"` exactly when the string contains `"PM"`, else
`"AM"`); every record's key appears among the buckets returned by
`getOrdersOverTime`. -/
theorem getOrdersOverTime_bucket_key (orders : List OrderRec)
    (o : OrderRec) (ho : o ∈ orders) :
    bucketKey o.time ∈ (getOrdersOverTime orders).map Prod.fst := by
  unfold getOrdersOverTime
  have hperm := (stableSort_perm timeEntryBefore (timeCounts orders)).map Prod.fst
  rw [hperm.mem_iff]
  unfold timeCounts
  exact bucketKey_mem_timeCounts orders o ho []

/-- Witness for the amended Claim C4, at the `"02:00 PM"` record. -/
theorem getOrdersOverTime_bucket_key_witness :
    bucketKey exPadded.time ∈ (getOrdersOverTime [exPadded]).map Prod.fst :=
  getOrdersOverTime_bucket_key [exPadded] exPadded (by decide)

/-- Claim C5: evaluating `getOrdersOverTime` at a just-after-midnight
record together with a morning record shows the `"12AM"` bucket sorted
after `"09AM"` — the sort helper maps 12AM to hour 12, not 0, so the
midnight bucket does not precede the others as the spec requires. -/
theorem getOrdersOverTime_midnight_order :
    getOrdersOverTime exMidnight = [("09AM", 1), ("12AM", 1)] := by decide

/-- Claim C6, counterexample: a record whose `timeOfDay` is `"25:00"` —
no AM/PM designator, hour outside 1–12 — is not rejected: it is counted
in the bucket `"25AM"`, contradicting the required `InvalidTimeFormat`
failure. -/
theorem getOrdersOverTime_malformed_cx :
    getOrdersOverTime [exMalformed] = [("25AM", 1)] ∧
    ((getOrdersOverTime [exMalformed]).map Prod.snd).sum = 1 := by decide

/-- Claim C6, amended: `getOrdersOverTime` never fails and never drops a
record — for every input, malformed times included, the bucket counts sum
to the number of records; a time without `"PM"` is treated as AM and
bucketed under the text before its first colon. -/
theorem getOrdersOverTime_counts_every_record (orders : List OrderRec) :
    ((getOrdersOverTime orders).map Prod.snd).sum = orders.length := by
  unfold getOrdersOverTime
  have hperm := (stableSort_perm timeEntryBefore (timeCounts orders)).map Prod.snd
  rw [hperm.sum_eq]
  unfold timeCounts
  simpa using foldl_bumpCount_sum orders []

/-- Claim C7, counterexample: with two distinct items and `limit = -1`,
`getTopItems` returns one entry, not the empty sequence the claim requires
for `limit ≤ 0` — `slice(0, -1)` drops from the end instead. -/
theorem getTopItems_negative_limit_cx :
    getTopItems exTwoItems (-1) = [("B", 2)] ∧
    getTopItems exTwoItems (-1) ≠ [] := by decide

/-- Claim C7, amended: `limit = 0` yields the empty sequence; a `limit` at
least the number of distinct item names yields the whole ranking; a
negative `limit` keeps all but the last `|limit|` ranked entries (the
JavaScript `slice` negative-end rule), so it is empty only when `|limit|`
reaches the distinct-item count. -/
theorem getTopItems_limit_behavior (orders : List OrderRec) (limit : Int) :
    (limit = 0 → getTopItems orders limit = []) ∧
    (((itemEntries orders).length : Int) ≤ limit →
      getTopItems orders limit = stableSort topBefore (itemEntries orders)) ∧
    (limit < 0 →
      (getTopItems orders limit).length =
        (((itemEntries orders).length : Int) + limit).toNat) := by
  have hlen : (stableSort topBefore (itemEntries orders)).length =
      (itemEntries orders).length :=
    (stableSort_perm topBefore (itemEntries orders)).length_eq
  refine ⟨?_, ?_, ?_⟩
  · rintro rfl
    simp [getTopItems, jsSliceTo]
  · intro h
    unfold getTopItems jsSliceTo
    rw [if_neg (by omega)]
    exact List.take_of_length_le (by omega)
  · intro h
    unfold getTopItems jsSliceTo
    rw [if_pos h, List.length_take, hlen]
    omega

/-- Witness for the amended Claim C7: the three regimes at the two-item
example input. -/
theorem getTopItems_limit_behavior_witness :
    getTopItems exTwoItems 0 = [] ∧
    getTopItems exTwoItems 5 = stableSort topBefore (itemEntries exTwoItems) ∧
    (getTopItems exTwoItems (-1)).length =
      (((itemEntries exTwoItems).length : Int) + (-1)).toNat :=
  ⟨(getTopItems_limit_behavior exTwoItems 0).1 rfl,
   (getTopItems_limit_behavior exTwoItems 5).2.1 (by decide),
   (getTopItems_limit_behavior exTwoItems (-1)).2.2 (by decide)⟩

/-- Claim C8: `getTopItems` lists entries in descending order of
accumulated quantity, and entries of equal quantity appear in the order
their item names were first seen — the equal-quantity subsequence of the
output is an initial segment of the first-seen-ordered `itemEntries`
subsequence with that quantity. -/
theorem getTopItems_ranking_order (orders : List OrderRec) (limit : Int) :
    ((getTopItems orders limit).Pairwise (fun a b => b.2 ≤ a.2)) ∧
    (∀ c : Nat, ∃ t : List (String × Nat),
      (getTopItems orders limit).filter (fun e => decide (e.2 = c)) ++ t =
        (itemEntries orders).filter (fun e => decide (e.2 = c))) := by
  constructor
  · have hp := stableSort_pairwise
      topBefore_asymm topBefore_negtrans (itemEntries orders)
    have hsub : List.Sublist (getTopItems orders limit)
        (stableSort topBefore (itemEntries orders)) := List.take_sublist _ _
    exact (hp.sublist hsub).imp (fun h => by
      simp only [topBefore, decide_eq_false_iff_not] at h
      omega)
  · intro c
    have hq : ∀ a b : String × Nat, (fun e => decide (e.2 = c)) a = true →
        (fun e => decide (e.2 = c)) b = true → topBefore a b = false := by
      intro a b ha hb
      simp only [decide_eq_true_eq] at ha hb
      simp [topBefore, ha, hb]
    refine ⟨((stableSort topBefore (itemEntries orders)).drop
      (if limit < 0 then (((stableSort topBefore (itemEntries orders)).length : Int)
        + limit).toNat else limit.toNat)).filter (fun e => decide (e.2 = c)), ?_⟩
    unfold getTopItems jsSliceTo
    rw [← List.filter_append, List.take_append_drop]
    exact filter_stableSort _ hq (itemEntries orders)

/-- Claim C9: the View Engine's sort is stable with case-insensitive
string comparison — for every row collection, sort key and direction, the
output is ordered by the comparator (which lowercases both string values
before comparing), and rows whose sort-key values compare equal (equal
`normKey`, i.e. equal lowercased field or equal quantity) keep their
relative order from the input. -/
theorem sortRows_stable_case_insensitive (key : SortKey) (dir : SortDir)
    (rows : List FlatRow) :
    ((sortRows key dir rows).Pairwise
      (fun a b => rowBefore key dir b a = false)) ∧
    (∀ v : String ⊕ Nat,
      (sortRows key dir rows).filter (fun r => decide (normKey key r = v)) =
        rows.filter (fun r => decide (normKey key r = v))) := by
  constructor
  · exact stableSort_pairwise (rowBefore_asymm key dir)
      (rowBefore_negtrans key dir) rows
  · intro v
    apply filter_stableSort
    intro a b ha hb
    simp only [decide_eq_true_eq] at ha hb
    exact rowBefore_of_normKey_eq key dir a b (ha.trans hb.symm)

/-- Claim C10: when both the search text and the item filter are empty,
the sort of `filteredAndSortedOrders` reorders the flattener's array in
place — afterwards that array holds the sorted rows, identical to the
returned list — whereas when either filter is non-empty the sort acts on a
freshly filtered copy and the flattener's array is left unchanged. -/
theorem filteredAndSortedOrders_frame (orders : List OrderRec)
    (search itemType : String) (key : SortKey) (dir : SortDir) :
    (search = "" → itemType = "" →
      filteredAndSortedOrders (flattenedOrders orders) search itemType key dir =
        (sortRows key dir (flattenedOrders orders),
         sortRows key dir (flattenedOrders orders))) ∧
    ((search ≠ "" ∨ itemType ≠ "") →
      (filteredAndSortedOrders (flattenedOrders orders) search itemType
        key dir).1 = flattenedOrders orders) := by
  constructor
  · rintro rfl rfl
    simp [filteredAndSortedOrders]
  · rintro (h | h)
    · unfold filteredAndSortedOrders
      dsimp only
      rw [if_neg h]
      by_cases hit : itemType = "" <;> simp [hit]
    · unfold filteredAndSortedOrders
      dsimp only
      rw [if_neg h]
      by_cases hs : search = "" <;> simp [hs]

/-- Witness for Claim C10: both branches at concrete filter settings. -/
theorem filteredAndSortedOrders_frame_witness :
    (filteredAndSortedOrders (flattenedOrders exRecords) "" ""
        SortKey.time SortDir.desc =
      (sortRows SortKey.time SortDir.desc (flattenedOrders exRecords),
       sortRows SortKey.time SortDir.desc (flattenedOrders exRecords))) ∧
    (filteredAndSortedOrders (flattenedOrders exRecords) "Raj" ""
        SortKey.time SortDir.desc).1 = flattenedOrders exRecords :=
  ⟨(filteredAndSortedOrders_frame exRecords "" "" SortKey.time SortDir.desc).1
      rfl rfl,
   (filteredAndSortedOrders_frame exRecords "Raj" "" SortKey.time
      SortDir.desc).2 (Or.inl (by decide))⟩
